import Mathlib

/-!
# URL shortener microservice (`src/index.js`)

A shallow embedding of the two request handlers of `src/index.js`
(`POST /api/shorturl` and `GET /api/shorturl/:short_url`), of the helper
`getNextSequenceValue`, and of the two MongoDB collections they work on.

Modelling conventions.

* A collection is the list of its documents in insertion order; `findOne`
  returns the first document that matches the filter.
* JavaScript `Number` values that hold integers are `Int`; the model is exact
  as long as the values stay inside the safe-integer range of a double.
* What the handlers get from outside the repository is an `Env`, one per
  request: the WHATWG parser behind `new URL(...)`, the outcome of
  `dns.lookup`, and whether a storage call of the request is rejected.
* Every handler returns the new database, the HTTP response and the list of
  DNS and storage operations it issued, in order.
-/

namespace UrlShortener

/-! ## Data model (lines 21-40) -/

/-- A document of the `counters` collection (`counterSchema`). -/
structure CounterDoc where
  _id : String
  sequence_value : Int
deriving DecidableEq, Repr

/-- A document of the `urls` collection (`urlSchema`). -/
structure UrlDoc where
  original_url : String
  short_url : Int
deriving DecidableEq, Repr

/-- The persisted state: both collections. -/
structure Db where
  counters : List CounterDoc
  urls : List UrlDoc
deriving DecidableEq, Repr

/-- The empty state: no counter record, no url record. -/
def Db.empty : Db := ⟨[], []⟩

/-- The two fields of `new URL(inputUrl)` that the handler reads. -/
structure ParsedURL where
  protocol : String
  hostname : String
deriving DecidableEq, Repr

/-- The HTTP responses the two handlers produce, by the call that sends
them: `res.json({original_url, short_url})`, `res.json({error})`,
`res.redirect(location)` with the argument the handler passes, and
`res.status(500).send(body)`. -/
inductive Response where
  | json (original_url : String) (short_url : Int)
  | jsonError (error : String)
  | redirect (location : String)
  | status500 (body : String)
deriving DecidableEq, Repr

/-- The DNS and storage operations a handler can issue. -/
inductive Effect where
  | dnsLookup (hostname : String)
  | urlFindOneByOriginal (original_url : String)
  | counterFindOneAndUpdate (counterName : String)
  | urlSave (doc : UrlDoc)
  | urlFindOneByShort (short_url : Int)
deriving DecidableEq, Repr

/-- Whether an operation is a call to the storage layer. -/
def Effect.isStorage : Effect → Bool
  | .dnsLookup _ => false
  | _ => true

/-- Whether an operation is a DNS lookup. -/
def Effect.isDns : Effect → Bool
  | .dnsLookup _ => true
  | _ => false

/-- What one request meets outside the repository. `parseURL s` is
`new URL(s)`, `none` when it throws; the WHATWG parser rejects the empty
string. `dnsLookup h` is `true` when `dns.lookup` calls back without an
error. The three flags say whether the storage layer rejects the
corresponding call of this request. -/
structure Env where
  parseURL : String → Option ParsedURL
  parseURL_empty : parseURL "" = none
  dnsLookup : String → Bool
  findOneFails : Bool
  findOneAndUpdateFails : Bool
  saveFails : Bool

/-! ## Storage operations -/

/-- The call `Counter.findOneAndUpdate({_id: counterName},
{$inc: {sequence_value: 1}}, {new: true, upsert: true})`: the first counter
named `counterName` is incremented; when there is none, one is inserted, on
which `$inc` sets the absent field to `1`. Returns the collection and the
updated document. -/
def Counter.findOneAndUpdate : List CounterDoc → String → List CounterDoc × CounterDoc
  | [], counterName => ([CounterDoc.mk counterName 1], CounterDoc.mk counterName 1)
  | c :: rest, counterName =>
    if c._id = counterName then
      (CounterDoc.mk c._id (c.sequence_value + 1) :: rest,
        CounterDoc.mk c._id (c.sequence_value + 1))
    else
      ((Counter.findOneAndUpdate rest counterName).1.cons c,
        (Counter.findOneAndUpdate rest counterName).2)

/-- Lines 61-68: `getNextSequenceValue`. -/
def getNextSequenceValue (db : Db) (counterName : String) : Db × Int :=
  (⟨(Counter.findOneAndUpdate db.counters counterName).1, db.urls⟩,
    (Counter.findOneAndUpdate db.counters counterName).2.sequence_value)

/-- The call `Url.findOne({ original_url: inputUrl })`: exact string match. -/
def Url.findOneByOriginal (urls : List UrlDoc) (inputUrl : String) : Option UrlDoc :=
  urls.find? (fun d => d.original_url == inputUrl)

/-- The call `Url.findOne({ short_url })` for a number that is not `NaN`. -/
def Url.findOneByShort (urls : List UrlDoc) (short_url : Int) : Option UrlDoc :=
  urls.find? (fun d => d.short_url == short_url)

/-- Why `save` can be rejected by the schema or by the index. -/
inductive SaveError where
  | validation
  | duplicateKey
deriving DecidableEq, Repr

/-- The call `newUrl.save()`: `required: true` on the string path
`original_url` rejects the empty string, the unique index on `short_url`
rejects a value that is already stored, otherwise the document is
appended. -/
def Url.save (urls : List UrlDoc) (doc : UrlDoc) : Except SaveError (List UrlDoc) :=
  if doc.original_url = "" then .error .validation
  else if urls.any (fun d => d.short_url == doc.short_url) then .error .duplicateKey
  else .ok (urls ++ [doc])

/-- The value of the counter `counterName`, `0` when it has no record. -/
def counterValue (db : Db) (counterName : String) : Int :=
  match db.counters.find? (fun c => c._id == counterName) with
  | some c => c.sequence_value
  | none => 0

/-! ## `POST /api/shorturl` (lines 71-124) -/

/-- The handler of `POST /api/shorturl`, run as one sequential request. -/
def shorten (env : Env) (db : Db) (inputUrl : String) : Db × Response × List Effect :=
  match env.parseURL inputUrl with
  | none => (db, .jsonError "invalid url", [])
  | some parsedUrl =>
    if parsedUrl.protocol ≠ "http:" ∧ parsedUrl.protocol ≠ "https:" then
      (db, .jsonError "invalid url", [])
    else if env.dnsLookup parsedUrl.hostname = false then
      (db, .jsonError "invalid url", [.dnsLookup parsedUrl.hostname])
    else if env.findOneFails then
      (db, .status500 "Error creating shortened URL",
        [.dnsLookup parsedUrl.hostname, .urlFindOneByOriginal inputUrl])
    else
      match Url.findOneByOriginal db.urls inputUrl with
      | some existingUrl =>
        (db, .json existingUrl.original_url existingUrl.short_url,
          [.dnsLookup parsedUrl.hostname, .urlFindOneByOriginal inputUrl])
      | none =>
        if env.findOneAndUpdateFails then
          (db, .status500 "Error creating shortened URL",
            [.dnsLookup parsedUrl.hostname, .urlFindOneByOriginal inputUrl,
              .counterFindOneAndUpdate "sequence_value"])
        else
          let db1 := (getNextSequenceValue db "sequence_value").1
          let short_url := (getNextSequenceValue db "sequence_value").2
          let newUrl := UrlDoc.mk inputUrl short_url
          let effects := [Effect.dnsLookup parsedUrl.hostname,
            Effect.urlFindOneByOriginal inputUrl,
            Effect.counterFindOneAndUpdate "sequence_value", Effect.urlSave newUrl]
          if env.saveFails then
            (db1, .status500 "Error creating shortened URL", effects)
          else
            match Url.save db1.urls newUrl with
            | .error _ => (db1, .status500 "Error creating shortened URL", effects)
            | .ok urls => (⟨db1.counters, urls⟩, .json inputUrl short_url, effects)

/-! ## `GET /api/shorturl/:short_url` (lines 127-143) -/

/-- The characters `parseInt` skips at the start of its argument
(ECMAScript `WhiteSpace` and `LineTerminator`). -/
def isJsWhiteSpace (c : Char) : Bool :=
  c.toNat = 0x09 || c.toNat = 0x0A || c.toNat = 0x0B || c.toNat = 0x0C || c.toNat = 0x0D
    || c.toNat = 0x20 || c.toNat = 0xA0 || c.toNat = 0x1680
    || (0x2000 ≤ c.toNat && c.toNat ≤ 0x200A)
    || c.toNat = 0x2028 || c.toNat = 0x2029 || c.toNat = 0x202F || c.toNat = 0x205F
    || c.toNat = 0x3000 || c.toNat = 0xFEFF

/-- A radix-10 digit. -/
def isDecDigit (c : Char) : Bool := 48 ≤ c.toNat && c.toNat ≤ 57

/-- The mathematical value of a run of decimal digits. -/
def digitsValue (ds : List Char) : Nat :=
  ds.foldl (fun acc c => acc * 10 + (c.toNat - 48)) 0

/-- The steps of `parseInt(_, 10)` after the leading white space is gone:
an optional sign, then the longest run of digits; `none` is `NaN`. -/
def parseIntSigned : List Char → Option Int
  | '-' :: rest =>
    if (rest.takeWhile isDecDigit).isEmpty then none
    else some (-(digitsValue (rest.takeWhile isDecDigit) : Int))
  | '+' :: rest =>
    if (rest.takeWhile isDecDigit).isEmpty then none
    else some (digitsValue (rest.takeWhile isDecDigit) : Int)
  | s =>
    if (s.takeWhile isDecDigit).isEmpty then none
    else some (digitsValue (s.takeWhile isDecDigit) : Int)

/-- The call `parseInt(param, 10)`; `none` is `NaN`. -/
def parseInt (param : String) : Option Int :=
  parseIntSigned (param.toList.dropWhile isJsWhiteSpace)

/-- The handler of `GET /api/shorturl/:short_url`. Mongoose refuses to cast
`NaN` to the `Number` path `short_url`, so `findOne` rejects before any query
is sent and the `catch` branch answers; a rejected query ends there too. -/
def resolve (env : Env) (db : Db) (param : String) : Db × Response × List Effect :=
  match parseInt param with
  | none => (db, .jsonError "invalid url", [])
  | some short_url =>
    if env.findOneFails then
      (db, .jsonError "invalid url", [.urlFindOneByShort short_url])
    else
      match Url.findOneByShort db.urls short_url with
      | some doc => (db, .redirect doc.original_url, [.urlFindOneByShort short_url])
      | none => (db, .jsonError "Short URL not found", [.urlFindOneByShort short_url])

/-! ## Sequential runs -/

/-- One request served from start to end. -/
inductive Op where
  | shorten (env : Env) (inputUrl : String)
  | resolve (env : Env) (param : String)

/-- Serve one request. -/
def applyOp (db : Db) : Op → Db × Response × List Effect
  | .shorten env inputUrl => shorten env db inputUrl
  | .resolve env param => resolve env db param

/-- The state after serving the requests one after the other. -/
def run (db : Db) : List Op → Db
  | [] => db
  | op :: ops => run (applyOp db op).1 ops

/-- The responses of the requests served one after the other. -/
def responses (db : Db) : List Op → List Response
  | [] => []
  | op :: ops => (applyOp db op).2.1 :: responses (applyOp db op).1 ops

/-- A state reachable from the empty state by sequential requests. -/
def Reachable (db : Db) : Prop := ∃ ops, run Db.empty ops = db

/-- The values handed out when the atomic `findOneAndUpdate` steps of
several callers of `getNextSequenceValue` reach the storage layer in the
order `names` (one entry per call, holding the counter name of the call). -/
def allocations (db : Db) : List String → List Int
  | [] => []
  | counterName :: names =>
    (getNextSequenceValue db counterName).2 ::
      allocations (getNextSequenceValue db counterName).1 names

/-! ## Interleaved requests

The storage calls of the `POST` handler after validation (lines 93-114), one
atomic step each, so that steps of different requests can alternate. Every
storage call is answered (no rejected call). -/

/-- Where a request stands: before `Url.findOne`, before
`getNextSequenceValue`, before `save` with the code it holds, or answered. -/
inductive Pc where
  | atFindOne
  | atAllocate
  | atSave (short_url : Int)
  | done (res : Response)
deriving DecidableEq, Repr

/-- A request that passed validation and the DNS lookup. -/
structure Request where
  inputUrl : String
  pc : Pc
deriving DecidableEq, Repr

/-- One storage call of a request. -/
def stepRequest (db : Db) (r : Request) : Db × Request :=
  match r.pc with
  | .atFindOne =>
    match Url.findOneByOriginal db.urls r.inputUrl with
    | some existingUrl =>
      (db, ⟨r.inputUrl, .done (.json existingUrl.original_url existingUrl.short_url)⟩)
    | none => (db, ⟨r.inputUrl, .atAllocate⟩)
  | .atAllocate =>
    ((getNextSequenceValue db "sequence_value").1,
      ⟨r.inputUrl, .atSave (getNextSequenceValue db "sequence_value").2⟩)
  | .atSave short_url =>
    match Url.save db.urls (UrlDoc.mk r.inputUrl short_url) with
    | .error _ => (db, ⟨r.inputUrl, .done (.status500 "Error creating shortened URL")⟩)
    | .ok urls => (⟨db.counters, urls⟩, ⟨r.inputUrl, .done (.json r.inputUrl short_url)⟩)
  | .done _ => (db, r)

/-- Two requests in flight: the next step is taken by the second request
when `second` is `true`, by the first otherwise. -/
def stepPair (s : Db × Request × Request) (second : Bool) : Db × Request × Request :=
  if second then ((stepRequest s.1 s.2.2).1, s.2.1, (stepRequest s.1 s.2.2).2)
  else ((stepRequest s.1 s.2.1).1, (stepRequest s.1 s.2.1).2, s.2.2)

/-- Two requests in flight, stepped in the order of the schedule. -/
def runPair (s : Db × Request × Request) : List Bool → Db × Request × Request
  | [] => s
  | b :: schedule => runPair (stepPair s b) schedule

/-- The invariant of sequential runs: the counter `sequence_value` is not
negative, every stored code lies between `1` and its value, and no code is
stored twice. -/
def Inv (db : Db) : Prop :=
  0 ≤ counterValue db "sequence_value" ∧
    (∀ d ∈ db.urls, 1 ≤ d.short_url ∧ d.short_url ≤ counterValue db "sequence_value") ∧
    (db.urls.map UrlDoc.short_url).Nodup

/-! ## A stand-in environment for concrete evaluation -/

/-- Whether the characters `p` open the characters `s`. -/
def startsWithChars : List Char → List Char → Bool
  | [], _ => true
  | _ :: _, [] => false
  | a :: p, b :: s => a == b && startsWithChars p s

/-- A parser for the examples: it knows `http://`, `https://` and `ftp://`
followed by a host. -/
def sampleParseURL (s : String) : Option ParsedURL :=
  if startsWithChars "https://".toList s.toList then
    some ⟨"https:", String.mk (s.toList.drop 8)⟩
  else if startsWithChars "http://".toList s.toList then
    some ⟨"http:", String.mk (s.toList.drop 7)⟩
  else if startsWithChars "ftp://".toList s.toList then
    some ⟨"ftp:", String.mk (s.toList.drop 6)⟩
  else none

/-- An environment where every host resolves and storage never fails. -/
def sampleEnv : Env :=
  ⟨sampleParseURL, by decide, fun _ => true, false, false, false⟩

/-- An environment where every host resolves and the storage layer rejects
the `findOne` call of the request. -/
def rejectedLookupEnv : Env :=
  ⟨sampleParseURL, by decide, fun _ => true, true, false, false⟩

/-- Two first submissions, one after the other. -/
def sampleOps : List Op :=
  [.shorten sampleEnv "https://www.example.com", .shorten sampleEnv "http://b.example"]

/-! ## Lemmas on the storage operations -/

theorem cfu_value (cs : List CounterDoc) (n : String) :
    (Counter.findOneAndUpdate cs n).2.sequence_value =
      (match cs.find? (fun c => c._id == n) with
        | some c => c.sequence_value
        | none => 0) + 1 := by
  induction cs with
  | nil => simp [Counter.findOneAndUpdate]
  | cons c rest ih =>
    by_cases h : c._id = n
    · simp [Counter.findOneAndUpdate, h]
    · simp [Counter.findOneAndUpdate, h, List.find?_cons, ih]

theorem cfu_find_same (cs : List CounterDoc) (n : String) :
    (Counter.findOneAndUpdate cs n).1.find? (fun c => c._id == n) =
      some (Counter.findOneAndUpdate cs n).2 := by
  induction cs with
  | nil => simp [Counter.findOneAndUpdate]
  | cons c rest ih =>
    by_cases h : c._id = n
    · simp [Counter.findOneAndUpdate, h]
    · simp [Counter.findOneAndUpdate, h, List.find?_cons, ih]

theorem cfu_id (cs : List CounterDoc) (n : String) :
    (Counter.findOneAndUpdate cs n).2._id = n := by
  induction cs with
  | nil => simp [Counter.findOneAndUpdate]
  | cons c rest ih =>
    by_cases h : c._id = n
    · simp [Counter.findOneAndUpdate, h]
    · simp [Counter.findOneAndUpdate, h, ih]

theorem cfu_find_other (cs : List CounterDoc) (n m : String) (hm : m ≠ n) :
    (Counter.findOneAndUpdate cs n).1.find? (fun c => c._id == m) =
      cs.find? (fun c => c._id == m) := by
  induction cs with
  | nil =>
    have : n ≠ m := fun h => hm h.symm
    simp [Counter.findOneAndUpdate, this]
  | cons c rest ih =>
    by_cases h : c._id = n
    · have h2 : ¬ n = m := fun h => hm h.symm
      simp [Counter.findOneAndUpdate, h, List.find?_cons, h2]
    · simp [Counter.findOneAndUpdate, h, List.find?_cons, ih]

theorem cfu_filter_other (cs : List CounterDoc) (n : String) :
    (Counter.findOneAndUpdate cs n).1.filter (fun c => c._id != n) =
      cs.filter (fun c => c._id != n) := by
  induction cs with
  | nil => simp [Counter.findOneAndUpdate]
  | cons c rest ih =>
    by_cases h : c._id = n
    · simp [Counter.findOneAndUpdate, h]
    · simp [Counter.findOneAndUpdate, h, List.filter_cons, ih]

theorem cfu_absent (cs : List CounterDoc) (n : String)
    (h : cs.find? (fun c => c._id == n) = none) :
    Counter.findOneAndUpdate cs n = (cs ++ [CounterDoc.mk n 1], CounterDoc.mk n 1) := by
  induction cs with
  | nil => simp [Counter.findOneAndUpdate]
  | cons c rest ih =>
    by_cases hc : c._id = n
    · simp [List.find?_cons, hc] at h
    · simp [List.find?_cons, hc] at h
      have ih2 := ih (by simpa using h)
      simp [Counter.findOneAndUpdate, hc, ih2]

theorem counterValue_next_same (db : Db) (n : String) :
    counterValue (getNextSequenceValue db n).1 n = counterValue db n + 1 := by
  unfold counterValue getNextSequenceValue
  simp only [cfu_find_same, cfu_value]

theorem next_value (db : Db) (n : String) :
    (getNextSequenceValue db n).2 = counterValue db n + 1 := by
  unfold counterValue getNextSequenceValue
  simp only [cfu_value]

theorem counterValue_next_other (db : Db) (n m : String) (hm : m ≠ n) :
    counterValue (getNextSequenceValue db n).1 m = counterValue db m := by
  unfold counterValue getNextSequenceValue
  simp only [cfu_find_other _ _ _ hm]

theorem next_urls (db : Db) (n : String) : (getNextSequenceValue db n).1.urls = db.urls := rfl

/-! ## Lemmas on the handlers -/

/-- The four ways a `POST` request can end. -/
theorem shorten_cases (env : Env) (db : Db) (u : String) :
    ((shorten env db u).1 = db ∧ ∀ o c, (shorten env db u).2.1 ≠ .json o c) ∨
    (∃ e, Url.findOneByOriginal db.urls u = some e ∧ (shorten env db u).1 = db ∧
      (shorten env db u).2.1 = .json e.original_url e.short_url) ∨
    ((shorten env db u).1 = (getNextSequenceValue db "sequence_value").1 ∧
      ∀ o c, (shorten env db u).2.1 ≠ .json o c) ∨
    (Url.findOneByOriginal db.urls u = none ∧ u ≠ "" ∧
      db.urls.any (fun d => d.short_url == (getNextSequenceValue db "sequence_value").2) = false ∧
      (shorten env db u).1 = ⟨(getNextSequenceValue db "sequence_value").1.counters,
        db.urls ++ [UrlDoc.mk u (getNextSequenceValue db "sequence_value").2]⟩ ∧
      (shorten env db u).2.1 = .json u (getNextSequenceValue db "sequence_value").2) := by
  unfold shorten
  split
  · left; simp
  · split
    · left; simp
    · split
      · left; simp
      · split
        · left; simp
        · split
          · next e he => right; left; exact ⟨e, he, rfl, rfl⟩
          · next hnone =>
            split
            · left; simp
            · simp only
              split
              · right; right; left; simp
              · split
                · right; right; left; simp
                · next urls hs =>
                  right; right; right
                  simp only [Url.save, next_urls] at hs
                  split at hs
                  · cases hs
                  · split at hs
                    · cases hs
                    · next h1 h2 =>
                      cases hs
                      refine ⟨hnone, h1, by simpa using h2, rfl, rfl⟩

theorem resolve_db (env : Env) (db : Db) (param : String) :
    (resolve env db param).1 = db := by
  unfold resolve
  split
  · rfl
  · split
    · rfl
    · split <;> rfl

theorem inv_empty : Inv Db.empty := by
  simp [Inv, Db.empty, counterValue]

theorem inv_next (db : Db) (h : Inv db) : Inv (getNextSequenceValue db "sequence_value").1 := by
  have h0 := h.1
  refine ⟨?_, fun d hd => ?_, h.2.2⟩
  · rw [counterValue_next_same]; omega
  · have := h.2.1 d hd
    rw [counterValue_next_same]
    exact ⟨this.1, by omega⟩

theorem inv_shorten (env : Env) (db : Db) (u : String) (h : Inv db) :
    Inv (shorten env db u).1 := by
  rcases shorten_cases env db u with hc | ⟨e, _, hc, _⟩ | hc | ⟨_, _, hfresh, hdb, _⟩
  · rw [hc.1]; exact h
  · rw [hc]; exact h
  · rw [hc.1]; exact inv_next db h
  · rw [hdb]
    have h0 := h.1
    have hcv : counterValue
        (Db.mk (getNextSequenceValue db "sequence_value").1.counters
          (db.urls ++ [UrlDoc.mk u (getNextSequenceValue db "sequence_value").2]))
        "sequence_value" = counterValue db "sequence_value" + 1 :=
      counterValue_next_same db "sequence_value"
    refine ⟨by rw [hcv]; omega, ?_, ?_⟩
    · intro d hd
      rw [hcv]
      simp only [List.mem_append, List.mem_singleton] at hd
      rcases hd with hd | hd
      · have := h.2.1 d hd
        exact ⟨this.1, by omega⟩
      · subst hd
        simp only [next_value]
        omega
    · simp only [List.map_append, List.map_cons, List.map_nil]
      rw [List.nodup_append]
      refine ⟨h.2.2, List.nodup_singleton _, ?_⟩
      intro a ha hb
      simp only [List.mem_singleton] at hb
      subst hb
      simp only [List.mem_map] at ha
      obtain ⟨d, hd, hdc⟩ := ha
      have := (h.2.1 d hd).2
      rw [next_value] at hdc
      omega

theorem inv_applyOp (db : Db) (op : Op) (h : Inv db) : Inv (applyOp db op).1 := by
  cases op with
  | shorten env u => exact inv_shorten env db u h
  | resolve env p => simp only [applyOp, resolve_db]; exact h

theorem inv_run (ops : List Op) : ∀ db : Db, Inv db → Inv (run db ops) := by
  induction ops with
  | nil => intro db h; exact h
  | cons op ops ih => intro db h; exact ih _ (inv_applyOp db op h)

theorem reachable_inv (db : Db) (h : Reachable db) : Inv db := by
  obtain ⟨ops, rfl⟩ := h
  exact inv_run ops _ inv_empty

theorem run_append (ops1 ops2 : List Op) : ∀ db : Db,
    run db (ops1 ++ ops2) = run (run db ops1) ops2 := by
  induction ops1 with
  | nil => intro db; rfl
  | cons op ops ih => intro db; exact ih _

theorem reachable_applyOp (db : Db) (op : Op) (h : Reachable db) :
    Reachable (applyOp db op).1 := by
  obtain ⟨ops, rfl⟩ := h
  exact ⟨ops ++ [op], by rw [run_append]; rfl⟩

theorem reachable_run (db : Db) (ops : List Op) (h : Reachable db) :
    Reachable (run db ops) := by
  obtain ⟨ops0, rfl⟩ := h
  exact ⟨ops0 ++ ops, run_append ops0 ops _⟩

theorem shorten_urls_mono (env : Env) (db : Db) (u : String) (d : UrlDoc)
    (hd : d ∈ db.urls) : d ∈ (shorten env db u).1.urls := by
  rcases shorten_cases env db u with hc | ⟨e, _, hc, _⟩ | hc | ⟨_, _, _, hdb, _⟩
  · rw [hc.1]; exact hd
  · rw [hc]; exact hd
  · rw [hc.1]; exact hd
  · rw [hdb]; exact List.mem_append_left _ hd

theorem applyOp_urls_mono (db : Db) (op : Op) (d : UrlDoc) (hd : d ∈ db.urls) :
    d ∈ (applyOp db op).1.urls := by
  cases op with
  | shorten env u => exact shorten_urls_mono env db u d hd
  | resolve env p => simp only [applyOp, resolve_db]; exact hd

theorem run_urls_mono (ops : List Op) : ∀ (db : Db) (d : UrlDoc),
    d ∈ db.urls → d ∈ (run db ops).urls := by
  induction ops with
  | nil => intro db d hd; exact hd
  | cons op ops ih => intro db d hd; exact ih _ d (applyOp_urls_mono db op d hd)

/-- A stored record was stored at the start or answered by a `POST`. -/
theorem run_urls_issued (ops : List Op) : ∀ (db : Db) (d : UrlDoc),
    d ∈ (run db ops).urls →
      d ∈ db.urls ∨ Response.json d.original_url d.short_url ∈ responses db ops := by
  induction ops with
  | nil => intro db d hd; exact Or.inl hd
  | cons op ops ih =>
    intro db d hd
    rcases ih _ d hd with h | h
    · cases op with
      | resolve env p =>
        simp only [applyOp, resolve_db] at h
        exact Or.inl h
      | shorten env u =>
        simp only [applyOp] at h
        rcases shorten_cases env db u with hc | ⟨e, _, hc, _⟩ | hc | ⟨_, _, _, hdb, hr⟩
        · rw [hc.1] at h; exact Or.inl h
        · rw [hc] at h; exact Or.inl h
        · rw [hc.1] at h; exact Or.inl h
        · rw [hdb] at h
          simp only [List.mem_append, List.mem_singleton] at h
          rcases h with h | h
          · exact Or.inl h
          · right
            subst h
            simp only [responses, applyOp, hr, List.mem_cons, true_or]
    · right
      simp only [responses, List.mem_cons]
      exact Or.inr h

/-! ## `parseInt` reads back a printed integer -/

theorem digitChar_dec (d : Nat) (h : d < 10) :
    isDecDigit (Nat.digitChar d) = true ∧ (Nat.digitChar d).toNat - 48 = d := by
  interval_cases d <;> decide

theorem digitsValue_append (l : List Char) (c : Char) :
    digitsValue (l ++ [c]) = digitsValue l * 10 + (c.toNat - 48) := by
  simp [digitsValue, List.foldl_append]

theorem toDigitsCore_dec (fuel : Nat) : ∀ (n : Nat) (ds : List Char), n < fuel →
    ∃ pre, Nat.toDigitsCore 10 fuel n ds = pre ++ ds ∧ pre ≠ [] ∧
      (∀ c ∈ pre, isDecDigit c = true) ∧ digitsValue pre = n := by
  induction fuel with
  | zero => intro n ds h; omega
  | succ fuel ih =>
    intro n ds h
    have hd := digitChar_dec (n % 10) (Nat.mod_lt _ (by decide))
    unfold Nat.toDigitsCore
    simp only
    split
    · next h0 =>
      refine ⟨[Nat.digitChar (n % 10)], rfl, by simp, ?_, ?_⟩
      · intro c hc
        simp only [List.mem_singleton] at hc
        subst hc; exact hd.1
      · simp only [digitsValue, List.foldl_cons, List.foldl_nil, hd.2]
        omega
    · next h0 =>
      obtain ⟨pre, hpre, hne, hall, hval⟩ :=
        ih (n / 10) (Nat.digitChar (n % 10) :: ds) (by omega)
      refine ⟨pre ++ [Nat.digitChar (n % 10)], ?_, by simp, ?_, ?_⟩
      · rw [hpre]; simp
      · intro c hc
        simp only [List.mem_append, List.mem_singleton] at hc
        rcases hc with hc | hc
        · exact hall c hc
        · subst hc; exact hd.1
      · rw [digitsValue_append, hval, hd.2]
        omega

theorem toDigits_dec (n : Nat) :
    Nat.toDigits 10 n ≠ [] ∧ (∀ c ∈ Nat.toDigits 10 n, isDecDigit c = true) ∧
      digitsValue (Nat.toDigits 10 n) = n := by
  obtain ⟨pre, hpre, hne, hall, hval⟩ := toDigitsCore_dec (n + 1) n [] (by omega)
  unfold Nat.toDigits
  rw [hpre, List.append_nil]
  exact ⟨hne, hall, hval⟩

theorem dec_not_space (c : Char) (h : isDecDigit c = true) :
    isJsWhiteSpace c = false ∧ c ≠ '-' ∧ c ≠ '+' := by
  simp only [isDecDigit, Bool.and_eq_true, decide_eq_true_eq] at h
  refine ⟨?_, ?_, ?_⟩
  · simp only [isJsWhiteSpace, Bool.or_eq_false_iff, Bool.and_eq_false_iff, decide_eq_false_iff_not]
    omega
  · intro hc; subst hc; revert h; decide
  · intro hc; subst hc; revert h; decide

theorem takeWhile_all (l : List Char) (h : ∀ c ∈ l, isDecDigit c = true) :
    l.takeWhile isDecDigit = l := by
  induction l with
  | nil => rfl
  | cons a l ih =>
    simp only [List.takeWhile_cons, h a (List.mem_cons_self _ _), if_true]
    rw [ih (fun c hc => h c (List.mem_cons_of_mem _ hc))]

theorem parseIntSigned_digits (l : List Char) (hne : l ≠ [])
    (h : ∀ c ∈ l, isDecDigit c = true) :
    parseIntSigned l = some (digitsValue l : Int) := by
  cases l with
  | nil => exact absurd rfl hne
  | cons a l =>
    have ha := dec_not_space a (h a (List.mem_cons_self _ _))
    unfold parseIntSigned
    split
    · next heq => simp only [List.cons.injEq] at heq; exact absurd heq.1 ha.2.1
    · next heq => simp only [List.cons.injEq] at heq; exact absurd heq.1 ha.2.2
    · rw [takeWhile_all _ h]; simp

theorem parseInt_toString_nat (n : Nat) : parseInt (toString n) = some (n : Int) := by
  obtain ⟨hne, hall, hval⟩ := toDigits_dec n
  have hl : (toString n).toList = Nat.toDigits 10 n := rfl
  unfold parseInt
  rw [hl]
  cases hds : Nat.toDigits 10 n with
  | nil => exact absurd hds hne
  | cons a l =>
    rw [hds] at hall hval hne
    have ha := dec_not_space a (hall a (List.mem_cons_self _ _))
    rw [List.dropWhile_cons, ha.1]
    simp only [Bool.false_eq_true, if_false]
    rw [parseIntSigned_digits _ hne hall, hval]

theorem parseInt_toString (c : Int) : parseInt (toString c) = some c := by
  cases c with
  | ofNat n => exact parseInt_toString_nat n
  | negSucc m =>
    obtain ⟨hne, hall, hval⟩ := toDigits_dec (m + 1)
    have hl : (toString (Int.negSucc m)).toList = '-' :: Nat.toDigits 10 (m + 1) := rfl
    unfold parseInt
    rw [hl, List.dropWhile_cons]
    have : isJsWhiteSpace '-' = false := by decide
    rw [this]
    simp only [Bool.false_eq_true, if_false]
    have hs : parseIntSigned ('-' :: Nat.toDigits 10 (m + 1)) =
        if ((Nat.toDigits 10 (m + 1)).takeWhile isDecDigit).isEmpty then none
        else some (-(digitsValue ((Nat.toDigits 10 (m + 1)).takeWhile isDecDigit) : Int)) := rfl
    rw [hs, takeWhile_all _ hall, hval]
    cases hds : Nat.toDigits 10 (m + 1) with
    | nil => exact absurd hds hne
    | cons a l => simp [Int.negSucc_eq]

theorem findOneByShort_mem (urls : List UrlDoc) (d : UrlDoc)
    (hnd : (urls.map UrlDoc.short_url).Nodup) (hd : d ∈ urls) :
    Url.findOneByShort urls d.short_url = some d := by
  unfold Url.findOneByShort
  cases hf : urls.find? (fun e => e.short_url == d.short_url) with
  | none =>
    have := List.find?_eq_none.mp hf d hd
    simp at this
  | some e =>
    have he : e ∈ urls := List.mem_of_find?_eq_some hf
    have hc : e.short_url = d.short_url := by
      have := List.find?_some hf
      simpa using this
    rw [List.inj_on_of_nodup_map hnd he hd hc]

theorem findOneByShort_absent (urls : List UrlDoc) (c : Int)
    (h : ∀ d ∈ urls, d.short_url ≠ c) : Url.findOneByShort urls c = none := by
  unfold Url.findOneByShort
  rw [List.find?_eq_none]
  intro d hd
  simpa using h d hd

theorem findOneByOriginal_some (urls : List UrlDoc) (u : String) (e : UrlDoc)
    (h : Url.findOneByOriginal urls u = some e) : e ∈ urls ∧ e.original_url = u := by
  unfold Url.findOneByOriginal at h
  refine ⟨List.mem_of_find?_eq_some h, ?_⟩
  have := List.find?_some h
  simpa using this

theorem findOneByOriginal_append_new (urls : List UrlDoc) (u : String) (c : Int)
    (h : Url.findOneByOriginal urls u = none) :
    Url.findOneByOriginal (urls ++ [UrlDoc.mk u c]) u = some (UrlDoc.mk u c) := by
  unfold Url.findOneByOriginal at h ⊢
  rw [List.find?_append, h]
  simp

theorem parseURL_nonempty (env : Env) (u : String) (p : ParsedURL)
    (h : env.parseURL u = some p) : u ≠ "" := by
  intro hu
  subst hu
  rw [env.parseURL_empty] at h
  cases h

/-- A `POST` request that passes validation and whose `findOne` is answered. -/
theorem shorten_validated (env : Env) (db : Db) (u : String) (p : ParsedURL)
    (hp : env.parseURL u = some p) (hproto : p.protocol = "http:" ∨ p.protocol = "https:")
    (hdns : env.dnsLookup p.hostname = true) (hf : env.findOneFails = false) :
    (∃ e, Url.findOneByOriginal db.urls u = some e ∧
      shorten env db u = (db, .json e.original_url e.short_url,
        [.dnsLookup p.hostname, .urlFindOneByOriginal u])) ∨
    (Url.findOneByOriginal db.urls u = none ∧
      (env.findOneAndUpdateFails = false → env.saveFails = false →
        db.urls.any (fun d => d.short_url == (getNextSequenceValue db "sequence_value").2)
          = false →
        shorten env db u =
          (⟨(getNextSequenceValue db "sequence_value").1.counters,
            db.urls ++ [UrlDoc.mk u (getNextSequenceValue db "sequence_value").2]⟩,
            .json u (getNextSequenceValue db "sequence_value").2,
            [.dnsLookup p.hostname, .urlFindOneByOriginal u,
              .counterFindOneAndUpdate "sequence_value",
              .urlSave (UrlDoc.mk u (getNextSequenceValue db "sequence_value").2)]))) := by
  have hne := parseURL_nonempty env u p hp
  have hguard : ¬ (p.protocol ≠ "http:" ∧ p.protocol ≠ "https:") := by
    rcases hproto with h | h <;> simp [h]
  cases hfo : Url.findOneByOriginal db.urls u with
  | some e =>
    left
    refine ⟨e, rfl, ?_⟩
    simp [shorten, hp, hguard, hdns, hf, hfo]
  | none =>
    right
    refine ⟨rfl, fun h2 h3 hfresh => ?_⟩
    simp only [shorten, hp, hguard, hdns, hf, hfo, h2, h3, Url.save, next_urls, hne, hfresh]
    simp

/-! ## Lemmas on interleaved allocations -/

theorem counterValue_next (db : Db) (m n : String) :
    counterValue (getNextSequenceValue db m).1 n =
      counterValue db n + (if m = n then 1 else 0) := by
  by_cases h : m = n
  · subst h; simp [counterValue_next_same]
  · have h2 : n ≠ m := fun e => h e.symm
    simp [h, counterValue_next_other db m n h2]

theorem allocations_value (names : List String) : ∀ (db : Db) (i : Nat) (n : String),
    names[i]? = some n →
      (allocations db names)[i]? =
        some (counterValue db n + ((names.take (i + 1)).count n : Nat)) := by
  induction names with
  | nil => intro db i n h; simp at h
  | cons m rest ih =>
    intro db i n h
    cases i with
    | zero =>
      simp only [List.getElem?_cons_zero, Option.some.injEq] at h
      subst h
      simp [allocations, next_value]
    | succ i =>
      simp only [List.getElem?_cons_succ] at h
      have := ih (getNextSequenceValue db m).1 i n h
      simp only [allocations, List.getElem?_cons_succ, this, counterValue_next,
        List.take_succ_cons, List.count_cons, Option.some.injEq]
      by_cases hmn : m = n
      · simp [hmn]; omega
      · simp [hmn]

theorem allocations_gt (names : List String) (db : Db) (j : Nat) (n : String) (v : Int)
    (hn : names[j]? = some n) (hv : (allocations db names)[j]? = some v) :
    counterValue db n < v := by
  rw [allocations_value names db j n hn] at hv
  simp only [Option.some.injEq] at hv
  have hmem : n ∈ names.take (j + 1) := by
    have : (names.take (j + 1))[j]? = some n := by
      rw [List.getElem?_take_of_lt (by omega)]; exact hn
    exact List.mem_iff_getElem?.mpr ⟨j, this⟩
  have := List.count_pos_iff.mpr hmem
  omega

theorem allocations_distinct (names : List String) : ∀ (db : Db) (i j : Nat) (n : String),
    i < j → names[i]? = some n → names[j]? = some n →
      (allocations db names)[i]? ≠ (allocations db names)[j]? := by
  induction names with
  | nil => intro db i j n _ h; simp at h
  | cons m rest ih =>
    intro db i j n hij hi hj
    cases j with
    | zero => omega
    | succ j =>
      simp only [List.getElem?_cons_succ] at hj
      cases i with
      | zero =>
        simp only [List.getElem?_cons_zero, Option.some.injEq] at hi
        subst hi
        intro heq
        simp only [allocations, List.getElem?_cons_zero, List.getElem?_cons_succ] at heq
        have := allocations_gt rest _ j m _ hj heq.symm
        rw [counterValue_next_same, next_value] at this
        omega
      | succ i =>
        simp only [List.getElem?_cons_succ] at hi
        simp only [allocations, List.getElem?_cons_succ]
        exact ih _ i j n (by omega) hi hj

theorem toString_nat_dec (n : Nat) : ∀ c ∈ (toString n).toList, isDecDigit c = true :=
  (toDigits_dec n).2.1

theorem resolve_of_parseInt (env : Env) (db : Db) (param : String) (n : Int)
    (h : parseInt param = some n) : resolve env db param = resolve env db (toString n) := by
  simp only [resolve, h, parseInt_toString]

theorem save_ok (urls : List UrlDoc) (u : String) (c : Int) (hu : u ≠ "")
    (h : ∀ d ∈ urls, d.short_url ≠ c) :
    Url.save urls (UrlDoc.mk u c) = .ok (urls ++ [UrlDoc.mk u c]) := by
  have : urls.any (fun d => d.short_url == c) = false := by
    rw [List.any_eq_false]
    intro d hd
    simpa using h d hd
  simp [Url.save, hu, this]

/-- The sequential handler is the three storage steps taken without
another request in between. -/
theorem shorten_as_steps (env : Env) (db : Db) (u : String) (p : ParsedURL) (r2 : Request)
    (hp : env.parseURL u = some p) (hproto : p.protocol = "http:" ∨ p.protocol = "https:")
    (hdns : env.dnsLookup p.hostname = true) (hf1 : env.findOneFails = false)
    (hf2 : env.findOneAndUpdateFails = false) (hf3 : env.saveFails = false) :
    runPair (db, ⟨u, .atFindOne⟩, r2) [false, false, false] =
      ((shorten env db u).1, ⟨u, .done (shorten env db u).2.1⟩, r2) := by
  have hguard : ¬ (p.protocol ≠ "http:" ∧ p.protocol ≠ "https:") := by
    rcases hproto with h | h <;> simp [h]
  cases hfo : Url.findOneByOriginal db.urls u with
  | some e =>
    simp [runPair, stepPair, stepRequest, shorten, hp, hguard, hdns, hf1, hfo]
  | none =>
    cases hs : Url.save db.urls (UrlDoc.mk u (getNextSequenceValue db "sequence_value").2) with
    | error err =>
      simp [runPair, stepPair, stepRequest, shorten, hp, hguard, hdns, hf1, hf2, hf3, hfo,
        next_urls, hs]
    | ok urls =>
      simp [runPair, stepPair, stepRequest, shorten, hp, hguard, hdns, hf1, hf2, hf3, hfo,
        next_urls, hs]

/-! ## The claims -/

/-- C1, uniqueness of codes: in every state reached from the empty state by
a finite sequence of `POST /api/shorturl` and `GET /api/shorturl/:short_url`
requests, two url records at different positions of the collection have
different `short_url` values. -/
theorem short_url_unique (ops : List Op) (i j : Nat) (d1 d2 : UrlDoc)
    (hij : i ≠ j)
    (h1 : (run Db.empty ops).urls[i]? = some d1)
    (h2 : (run Db.empty ops).urls[j]? = some d2) :
    d1.short_url ≠ d2.short_url := by
  have hnd := (inv_run ops _ inv_empty).2.2
  intro hc
  have hi : i < (run Db.empty ops).urls.length := by
    by_contra hlt
    rw [List.getElem?_eq_none (by omega)] at h1
    cases h1
  have hj : j < (run Db.empty ops).urls.length := by
    by_contra hlt
    rw [List.getElem?_eq_none (by omega)] at h2
    cases h2
  have e1 : ((run Db.empty ops).urls.map UrlDoc.short_url)[i]? = some d1.short_url := by
    rw [List.getElem?_map, h1]; rfl
  have e2 : ((run Db.empty ops).urls.map UrlDoc.short_url)[j]? = some d2.short_url := by
    rw [List.getElem?_map, h2]; rfl
  rw [hc, ← e2] at e1
  rcases Nat.lt_or_gt_of_ne hij with hlt | hlt
  · exact List.nodup_iff_getElem?_ne_getElem?.mp hnd i j hlt (by simpa using hj) e1
  · exact List.nodup_iff_getElem?_ne_getElem?.mp hnd j i hlt (by simpa using hi) e1.symm

/-- C1 on the two records stored by the run `sampleOps`. -/
theorem short_url_unique_witness :
    (run Db.empty sampleOps).urls[0]? = some (UrlDoc.mk "https://www.example.com" 1) ∧
    (run Db.empty sampleOps).urls[1]? = some (UrlDoc.mk "http://b.example" 2) ∧
    (UrlDoc.mk "https://www.example.com" 1).short_url ≠
      (UrlDoc.mk "http://b.example" 2).short_url :=
  ⟨by decide, by decide,
    short_url_unique sampleOps 0 1 _ _ (by decide) (by decide) (by decide)⟩

/-- C2 as stated fails: the first `POST` of `https://www.example.com` to the
empty store answers `{original_url: "https://www.example.com", short_url: 1}`,
and a later `GET` of `"1"`, the decimal string of `1`, whose lookup the
storage layer rejects is answered `{error: "invalid url"}` by the `catch`
branch, which is not a redirect. -/
theorem resolve_round_trip_counterexample :
    (shorten sampleEnv (run Db.empty []) "https://www.example.com").2.1 =
        .json "https://www.example.com" 1 ∧
      toString (1 : Int) = "1" ∧
      (resolve rejectedLookupEnv
        (run (shorten sampleEnv (run Db.empty []) "https://www.example.com").1 sampleOps)
        (toString (1 : Int))).2.1 = .jsonError "invalid url" ∧
      (resolve rejectedLookupEnv
        (run (shorten sampleEnv (run Db.empty []) "https://www.example.com").1 sampleOps)
        (toString (1 : Int))).2.1 ≠ .redirect "https://www.example.com" := by
  refine ⟨by decide, by decide, by decide, by decide⟩

/-- C2 as amended, round trip: when a `POST` of `u`, served in a state
reached from the empty state, answers `{original_url: o, short_url: c}`, then
`o` is `u`, the record `{u, c}` is stored, and in every later state of the
run a `GET` of the decimal string of `c` whose lookup is answered (not
rejected by the storage layer) redirects to exactly `u`. -/
theorem resolve_round_trip (ops1 ops2 : List Op) (env env2 : Env) (u o : String) (c : Int)
    (hs : (shorten env (run Db.empty ops1) u).2.1 = .json o c)
    (hf : env2.findOneFails = false) :
    o = u ∧ UrlDoc.mk u c ∈ (shorten env (run Db.empty ops1) u).1.urls ∧
      (resolve env2 (run (shorten env (run Db.empty ops1) u).1 ops2) (toString c)).2.1 =
        .redirect u := by
  have hmem : o = u ∧ UrlDoc.mk u c ∈ (shorten env (run Db.empty ops1) u).1.urls := by
    rcases shorten_cases env (run Db.empty ops1) u with
      hc | ⟨e, he, hdb, hr⟩ | hc | ⟨_, _, _, hdb, hr⟩
    · exact absurd hs (hc.2 o c)
    · rw [hr] at hs
      obtain ⟨hem, heu⟩ := findOneByOriginal_some _ _ _ he
      simp only [Response.json.injEq] at hs
      rw [hdb]
      refine ⟨by rw [← hs.1, heu], ?_⟩
      have : UrlDoc.mk u c = e := by
        cases e
        simp only [UrlDoc.mk.injEq] at *
        exact ⟨heu.symm, hs.2.symm⟩
      rw [this]; exact hem
    · exact absurd hs (hc.2 o c)
    · rw [hr] at hs
      simp only [Response.json.injEq] at hs
      rw [hdb, ← hs.2]
      exact ⟨hs.1.symm, by simp⟩
  refine ⟨hmem.1, hmem.2, ?_⟩
  have hreach : Reachable (run (shorten env (run Db.empty ops1) u).1 ops2) :=
    reachable_run _ ops2 (reachable_applyOp _ (.shorten env u) ⟨ops1, rfl⟩)
  have hnd := (reachable_inv _ hreach).2.2
  have hfind := findOneByShort_mem _ _ hnd (run_urls_mono ops2 _ _ hmem.2)
  simp only [resolve, parseInt_toString, hf]
  simp only at hfind
  simp [hfind]

/-- C2 as amended, for the first submission of `https://www.example.com`, resolved after
two more requests. -/
theorem resolve_round_trip_witness :
    (shorten sampleEnv (run Db.empty []) "https://www.example.com").2.1 =
        .json "https://www.example.com" 1 ∧
      sampleEnv.findOneFails = false ∧
      ("https://www.example.com" = "https://www.example.com" ∧
        UrlDoc.mk "https://www.example.com" 1 ∈
          (shorten sampleEnv (run Db.empty []) "https://www.example.com").1.urls ∧
        (resolve sampleEnv
          (run (shorten sampleEnv (run Db.empty []) "https://www.example.com").1 sampleOps)
          (toString (1 : Int))).2.1 = .redirect "https://www.example.com") :=
  ⟨by decide, rfl,
    resolve_round_trip [] sampleOps sampleEnv sampleEnv "https://www.example.com"
      "https://www.example.com" 1 (by decide) rfl⟩

/-- C3, idempotence of shorten: when a `POST` of `u` answers
`{original_url: o, short_url: c}` and `u` is submitted again to the state it
left, passing validation, with the `findOne` call answered, the second
request answers the same `{o, c}`, leaves the whole state (counter and url
records) as it was, and issues no storage call besides that `findOne`. -/
theorem shorten_idempotent (env1 env2 : Env) (db : Db) (u o : String) (c : Int)
    (p : ParsedURL)
    (h1 : (shorten env1 db u).2.1 = .json o c)
    (hp : env2.parseURL u = some p)
    (hproto : p.protocol = "http:" ∨ p.protocol = "https:")
    (hdns : env2.dnsLookup p.hostname = true)
    (hf : env2.findOneFails = false) :
    shorten env2 (shorten env1 db u).1 u =
      ((shorten env1 db u).1, .json o c,
        [.dnsLookup p.hostname, .urlFindOneByOriginal u]) := by
  have key : Url.findOneByOriginal (shorten env1 db u).1.urls u = some (UrlDoc.mk o c) := by
    rcases shorten_cases env1 db u with hc | ⟨e, he, hdb, hr⟩ | hc | ⟨hnone, _, _, hdb, hr⟩
    · exact absurd h1 (hc.2 o c)
    · rw [hr] at h1
      simp only [Response.json.injEq] at h1
      rw [hdb, he, ← h1.1, ← h1.2]
    · exact absurd h1 (hc.2 o c)
    · rw [hr] at h1
      simp only [Response.json.injEq] at h1
      rw [hdb, ← h1.1, ← h1.2]
      exact findOneByOriginal_append_new _ _ _ hnone
  rcases shorten_validated env2 (shorten env1 db u).1 u p hp hproto hdns hf with
    ⟨e, he, hres⟩ | ⟨hnone, _⟩
  · rw [key] at he
    cases he
    exact hres
  · rw [key] at hnone
    cases hnone

/-- C3 for `https://www.example.com` submitted twice to the empty store. -/
theorem shorten_idempotent_witness :
    (shorten sampleEnv Db.empty "https://www.example.com").2.1 =
        .json "https://www.example.com" 1 ∧
      shorten sampleEnv (shorten sampleEnv Db.empty "https://www.example.com").1
          "https://www.example.com" =
        ((shorten sampleEnv Db.empty "https://www.example.com").1,
          .json "https://www.example.com" 1,
          [.dnsLookup "www.example.com", .urlFindOneByOriginal "https://www.example.com"]) :=
  ⟨by decide,
    shorten_idempotent sampleEnv sampleEnv Db.empty "https://www.example.com"
      "https://www.example.com" 1 ⟨"https:", "www.example.com"⟩ (by decide) (by decide)
      (by decide) (by decide) rfl⟩

/-- C4, shorten returns the input: when the input string parses as a URL
with protocol `http:` or `https:`, its hostname lookup succeeds and no
storage call fails (none is rejected, and `save`, if reached, does not meet
its code in the unique index), the `POST` answers `{original_url, short_url}`
with `original_url` equal to the submitted string, whether the record existed
or is new, and afterwards a record with that `original_url` and that
`short_url` is stored. In a state reached from the empty state the unique
index never rejects, so there the answer follows without that proviso. -/
theorem shorten_returns_input :
    (∀ (env : Env) (db : Db) (u : String) (p : ParsedURL),
      env.parseURL u = some p → p.protocol = "http:" ∨ p.protocol = "https:" →
      env.dnsLookup p.hostname = true → env.findOneFails = false →
      env.findOneAndUpdateFails = false → env.saveFails = false →
      (Url.findOneByOriginal db.urls u = none →
        ∀ d ∈ db.urls, d.short_url ≠ (getNextSequenceValue db "sequence_value").2) →
        ∃ c : Int, (shorten env db u).2.1 = .json u c ∧
          UrlDoc.mk u c ∈ (shorten env db u).1.urls) ∧
    (∀ (ops : List Op) (env : Env) (u : String) (p : ParsedURL),
      env.parseURL u = some p → p.protocol = "http:" ∨ p.protocol = "https:" →
      env.dnsLookup p.hostname = true → env.findOneFails = false →
      env.findOneAndUpdateFails = false → env.saveFails = false →
        ∃ c : Int, (shorten env (run Db.empty ops) u).2.1 = .json u c ∧
          UrlDoc.mk u c ∈ (shorten env (run Db.empty ops) u).1.urls) := by
  have general : ∀ (env : Env) (db : Db) (u : String) (p : ParsedURL),
      env.parseURL u = some p → p.protocol = "http:" ∨ p.protocol = "https:" →
      env.dnsLookup p.hostname = true → env.findOneFails = false →
      env.findOneAndUpdateFails = false → env.saveFails = false →
      (Url.findOneByOriginal db.urls u = none →
        ∀ d ∈ db.urls, d.short_url ≠ (getNextSequenceValue db "sequence_value").2) →
        ∃ c : Int, (shorten env db u).2.1 = .json u c ∧
          UrlDoc.mk u c ∈ (shorten env db u).1.urls := by
    intro env db u p hp hproto hdns hf1 hf2 hf3 hidx
    rcases shorten_validated env db u p hp hproto hdns hf1 with ⟨e, he, hres⟩ | ⟨hnone, hres⟩
    · obtain ⟨hem, heu⟩ := findOneByOriginal_some _ _ _ he
      refine ⟨e.short_url, ?_, ?_⟩
      · rw [hres, heu]
      · rw [hres]
        have : UrlDoc.mk u e.short_url = e := by rw [← heu]
        rw [this]; exact hem
    · have hfresh : db.urls.any
          (fun d => d.short_url == (getNextSequenceValue db "sequence_value").2) = false := by
        rw [List.any_eq_false]
        intro d hd
        simpa using hidx hnone d hd
      rw [hres hf2 hf3 hfresh]
      exact ⟨_, rfl, by simp⟩
  refine ⟨general, ?_⟩
  intro ops env u p hp hproto hdns hf1 hf2 hf3
  have hinv := inv_run ops _ inv_empty
  refine general env _ u p hp hproto hdns hf1 hf2 hf3 (fun _ d hd => ?_)
  have := (hinv.2.1 d hd).2
  rw [next_value]
  omega

/-- C4 for a URL resubmitted to a store that holds it, and for a new URL
submitted after the run `sampleOps`. -/
theorem shorten_returns_input_witness :
    (∃ c : Int,
      (shorten sampleEnv ⟨[], [UrlDoc.mk "http://a.example" 7]⟩ "http://a.example").2.1 =
        .json "http://a.example" c ∧
      UrlDoc.mk "http://a.example" c ∈
        (shorten sampleEnv ⟨[], [UrlDoc.mk "http://a.example" 7]⟩
          "http://a.example").1.urls) ∧
    (∃ c : Int, (shorten sampleEnv (run Db.empty sampleOps) "https://c.example").2.1 =
        .json "https://c.example" c ∧
      UrlDoc.mk "https://c.example" c ∈
        (shorten sampleEnv (run Db.empty sampleOps) "https://c.example").1.urls) :=
  ⟨shorten_returns_input.1 sampleEnv ⟨[], [UrlDoc.mk "http://a.example" 7]⟩
      "http://a.example" ⟨"http:", "a.example"⟩ (by decide) (by decide) (by decide) rfl rfl rfl
      (by decide),
    shorten_returns_input.2 sampleOps sampleEnv "https://c.example" ⟨"https:", "c.example"⟩
      (by decide) (by decide) (by decide) rfl rfl rfl⟩

/-- C5, sequence allocator: `getNextSequenceValue` on a state with no record
for the name appends the record with value `1` and returns `1`; on a state
whose record for the name holds `v` it stores and returns `v + 1`; it leaves
the url records and every counter of another name as they were. So, from the
empty store, the call whose atomic step comes at position `i` of any order of
steps returns the number of steps for its name up to and including position
`i` (the `k`-th call for a name returns `k`), and from any state two calls
for the same name never return the same value, whatever the order of the
atomic steps. -/
theorem getNextSequenceValue_allocates :
    (∀ (db : Db) (name : String),
      db.counters.find? (fun c => c._id == name) = none →
        getNextSequenceValue db name =
          (⟨db.counters ++ [CounterDoc.mk name 1], db.urls⟩, 1)) ∧
    (∀ (db : Db) (name : String) (c : CounterDoc),
      db.counters.find? (fun c => c._id == name) = some c →
        (getNextSequenceValue db name).2 = c.sequence_value + 1 ∧
        (getNextSequenceValue db name).1.counters.find? (fun c => c._id == name) =
          some (CounterDoc.mk name (c.sequence_value + 1))) ∧
    (∀ (db : Db) (name : String),
      (getNextSequenceValue db name).1.urls = db.urls ∧
        (getNextSequenceValue db name).1.counters.filter (fun c => c._id != name) =
          db.counters.filter (fun c => c._id != name)) ∧
    (∀ (names : List String) (i : Nat) (name : String),
      names[i]? = some name →
        (allocations Db.empty names)[i]? =
          some (((names.take (i + 1)).count name : Nat) : Int)) ∧
    (∀ (db : Db) (names : List String) (i j : Nat) (name : String),
      i < j → names[i]? = some name → names[j]? = some name →
        (allocations db names)[i]? ≠ (allocations db names)[j]?) := by
  refine ⟨?_, ?_, ?_, ?_, ?_⟩
  · intro db name h
    simp only [getNextSequenceValue, cfu_absent _ _ h]
  · intro db name c h
    constructor
    · simp only [getNextSequenceValue, cfu_value, h]
    · simp only [getNextSequenceValue, cfu_find_same]
      have h1 := cfu_id db.counters name
      have h2 := cfu_value db.counters name
      rw [h] at h2
      simp only at h2
      congr 1
      cases hd : (Counter.findOneAndUpdate db.counters name).2 with
      | mk a b =>
        rw [hd] at h1 h2
        simp only at h1 h2
        rw [h1, h2]
  · intro db name
    exact ⟨rfl, cfu_filter_other db.counters name⟩
  · intro names i name h
    rw [allocations_value names Db.empty i name h]
    simp [counterValue, Db.empty]
  · intro db names i j name hij hi hj
    exact allocations_distinct names db i j name hij hi hj

/-- C5 on the empty store, on a counter holding `4`, and on the order of
steps `a`, `b`, `a`. -/
theorem getNextSequenceValue_allocates_witness :
    getNextSequenceValue Db.empty "sequence_value" =
        (⟨[CounterDoc.mk "sequence_value" 1], []⟩, 1) ∧
      ((getNextSequenceValue ⟨[CounterDoc.mk "sequence_value" 4], []⟩ "sequence_value").2
          = 4 + 1 ∧
        (getNextSequenceValue
            ⟨[CounterDoc.mk "sequence_value" 4], []⟩ "sequence_value").1.counters.find?
          (fun c => c._id == "sequence_value") = some (CounterDoc.mk "sequence_value" (4 + 1))) ∧
      (allocations Db.empty ["a", "b", "a"])[2]? = some ((2 : Nat) : Int) ∧
      (allocations Db.empty ["a", "b", "a"])[0]? ≠ (allocations Db.empty ["a", "b", "a"])[2]? :=
  ⟨getNextSequenceValue_allocates.1 Db.empty "sequence_value" rfl,
    getNextSequenceValue_allocates.2.1 ⟨[CounterDoc.mk "sequence_value" 4], []⟩
      "sequence_value" (CounterDoc.mk "sequence_value" 4) (by decide),
    getNextSequenceValue_allocates.2.2.2.1 ["a", "b", "a"] 2 "a" (by decide),
    getNextSequenceValue_allocates.2.2.2.2 Db.empty ["a", "b", "a"] 0 2 "a" (by decide)
      (by decide) (by decide)⟩

/-- C6 as stated fails: in the state left by one `POST`, whose record has
code `1`, the parameters `"1.5"` and `" 1"`, neither of them the decimal
representation of a non-negative integer, are redirected; so is `"12abc"` on
a store that holds code `12`. -/
theorem resolve_malformed_counterexample :
    ((∀ n : Nat, "1.5" ≠ toString n) ∧
      (resolve sampleEnv (run Db.empty [.shorten sampleEnv "https://www.example.com"])
        "1.5").2.1 = .redirect "https://www.example.com") ∧
    ((∀ n : Nat, " 1" ≠ toString n) ∧
      (resolve sampleEnv (run Db.empty [.shorten sampleEnv "https://www.example.com"])
        " 1").2.1 = .redirect "https://www.example.com") ∧
    ((∀ n : Nat, "12abc" ≠ toString n) ∧
      (resolve sampleEnv
        ⟨[CounterDoc.mk "sequence_value" 12], [UrlDoc.mk "https://www.example.com" 12]⟩
        "12abc").2.1 = .redirect "https://www.example.com") := by
  refine ⟨⟨fun n h => ?_, by decide⟩, ⟨fun n h => ?_, by decide⟩, ⟨fun n h => ?_, by decide⟩⟩
  · have := toString_nat_dec n '.' (by rw [← h]; decide)
    revert this; decide
  · have := toString_nat_dec n ' ' (by rw [← h]; decide)
    revert this; decide
  · have := toString_nat_dec n 'a' (by rw [← h]; decide)
    revert this; decide

/-- C6 as amended: for every store state and every parameter on which
`parseInt(_, 10)` yields `NaN`, the `GET` handler answers
`{error: "invalid url"}` without a query and leaves the state as it was; a
parameter that `parseInt` reads as the integer `n` is served exactly as the
decimal string of `n` (`"12abc"` as `12`, `"1.5"` and `" 1"` as `1`, `"-1"`
as `-1`, while `"abc"` is `NaN`); and in a state reached from the empty state
a parameter read as an integer below `1` is never redirected: the answer is
`{error: "Short URL not found"}`, or `{error: "invalid url"}` when the lookup
is rejected. -/
theorem resolve_reads_parseInt :
    (∀ (env : Env) (db : Db) (param : String), parseInt param = none →
      resolve env db param = (db, .jsonError "invalid url", [])) ∧
    (∀ (env : Env) (db : Db) (param : String) (n : Int), parseInt param = some n →
      resolve env db param = resolve env db (toString n)) ∧
    (parseInt "abc" = none ∧ parseInt "12abc" = some 12 ∧ parseInt "1.5" = some 1 ∧
      parseInt " 1" = some 1 ∧ parseInt "-1" = some (-1)) ∧
    (∀ (ops : List Op) (env : Env) (param : String) (n : Int),
      parseInt param = some n → n < 1 →
        (resolve env (run Db.empty ops) param).2.1 = .jsonError "Short URL not found" ∨
        (resolve env (run Db.empty ops) param).2.1 = .jsonError "invalid url") := by
  refine ⟨?_, ?_, by decide, ?_⟩
  · intro env db param h
    simp only [resolve, h]
  · intro env db param n h
    exact resolve_of_parseInt env db param n h
  · intro ops env param n h hn
    have hinv := inv_run ops _ inv_empty
    have habs := findOneByShort_absent (run Db.empty ops).urls n (fun d hd => by
      have := (hinv.2.1 d hd).1
      omega)
    cases hf : env.findOneFails with
    | true => right; simp [resolve, h, hf]
    | false => left; simp [resolve, h, hf, habs]

/-- C6 as amended, at the parameters `"abc"`, `"1.5"` and `"-1"`. -/
theorem resolve_reads_parseInt_witness :
    resolve sampleEnv Db.empty "abc" = (Db.empty, .jsonError "invalid url", []) ∧
      resolve sampleEnv (run Db.empty sampleOps) "1.5" =
        resolve sampleEnv (run Db.empty sampleOps) (toString (1 : Int)) ∧
      ((resolve sampleEnv (run Db.empty sampleOps) "-1").2.1 =
          .jsonError "Short URL not found" ∨
        (resolve sampleEnv (run Db.empty sampleOps) "-1").2.1 = .jsonError "invalid url") :=
  ⟨resolve_reads_parseInt.1 sampleEnv Db.empty "abc" (by decide),
    resolve_reads_parseInt.2.1 sampleEnv (run Db.empty sampleOps) "1.5" 1 (by decide),
    resolve_reads_parseInt.2.2.2 sampleOps sampleEnv "-1" (-1) (by decide) (by decide)⟩

/-- C7, validation failure: when `new URL(input)` throws, or yields a
protocol other than `http:` and `https:`, the `POST` answers
`{error: "invalid url"}` and issues neither a DNS lookup nor a storage call;
when the protocol is accepted and the hostname lookup fails it answers the
same and issues the DNS lookup only. In all three cases the state (counter
and url records) is returned as it was. -/
theorem shorten_validation_failure :
    (∀ (env : Env) (db : Db) (u : String), env.parseURL u = none →
      shorten env db u = (db, .jsonError "invalid url", [])) ∧
    (∀ (env : Env) (db : Db) (u : String) (p : ParsedURL), env.parseURL u = some p →
      p.protocol ≠ "http:" → p.protocol ≠ "https:" →
        shorten env db u = (db, .jsonError "invalid url", [])) ∧
    (∀ (env : Env) (db : Db) (u : String) (p : ParsedURL), env.parseURL u = some p →
      p.protocol = "http:" ∨ p.protocol = "https:" → env.dnsLookup p.hostname = false →
        shorten env db u = (db, .jsonError "invalid url", [.dnsLookup p.hostname]) ∧
        ∀ e ∈ (shorten env db u).2.2, e.isStorage = false) := by
  refine ⟨?_, ?_, ?_⟩
  · intro env db u h
    simp only [shorten, h]
  · intro env db u p h h1 h2
    simp [shorten, h, h1, h2]
  · intro env db u p h hproto hdns
    have hguard : ¬ (p.protocol ≠ "http:" ∧ p.protocol ≠ "https:") := by
      rcases hproto with h | h <;> simp [h]
    have : shorten env db u = (db, .jsonError "invalid url", [.dnsLookup p.hostname]) := by
      simp [shorten, h, hguard, hdns]
    rw [this]
    exact ⟨rfl, by simp [Effect.isStorage]⟩

/-- C7 at an unparsable input, at an `ftp` URL, and at an `https` URL whose
host does not resolve. -/
theorem shorten_validation_failure_witness :
    shorten sampleEnv (run Db.empty sampleOps) "not a url" =
        (run Db.empty sampleOps, .jsonError "invalid url", []) ∧
      shorten sampleEnv (run Db.empty sampleOps) "ftp://example.com" =
        (run Db.empty sampleOps, .jsonError "invalid url", []) ∧
      (shorten ⟨sampleParseURL, rfl, fun _ => false, false, false, false⟩
          (run Db.empty sampleOps) "https://nowhere.invalid" =
        (run Db.empty sampleOps, .jsonError "invalid url", [.dnsLookup "nowhere.invalid"]) ∧
        ∀ e ∈ (shorten ⟨sampleParseURL, rfl, fun _ => false, false, false, false⟩
          (run Db.empty sampleOps) "https://nowhere.invalid").2.2, e.isStorage = false) :=
  ⟨shorten_validation_failure.1 sampleEnv (run Db.empty sampleOps) "not a url" (by decide),
    shorten_validation_failure.2.1 sampleEnv (run Db.empty sampleOps) "ftp://example.com"
      ⟨"ftp:", "example.com"⟩ (by decide) (by decide) (by decide),
    shorten_validation_failure.2.2 ⟨sampleParseURL, rfl, fun _ => false, false, false, false⟩
      (run Db.empty sampleOps) "https://nowhere.invalid" ⟨"https:", "nowhere.invalid"⟩
      (by decide) (by decide) rfl⟩

/-- C8 as stated fails: the run `sampleOps` answered the codes `1` and `2`
only, and a `GET` of `"999"`, the decimal string of `999`, whose lookup the
storage layer rejects is answered `{error: "invalid url"}` by the `catch`
branch, not `{error: "Short URL not found"}`. -/
theorem resolve_unknown_code_counterexample :
    responses Db.empty sampleOps =
        [.json "https://www.example.com" 1, .json "http://b.example" 2] ∧
      toString (999 : Int) = "999" ∧
      (resolve rejectedLookupEnv (run Db.empty sampleOps) (toString (999 : Int))).2.1 =
        .jsonError "invalid url" ∧
      (resolve rejectedLookupEnv (run Db.empty sampleOps) (toString (999 : Int))).2.1 ≠
        .jsonError "Short URL not found" := by
  refine ⟨by decide, by decide, by decide, by decide⟩

/-- C8 as amended, unknown code: in a state reached from the empty state,
for every integer `c` that no `POST` of the run has answered as a
`short_url`, a `GET` of the decimal string of `c` is never redirected, and
when its lookup is answered (not rejected by the storage layer) it gets
`{error: "Short URL not found"}`; and a `GET` never changes the counter or
the url records, whatever its parameter and outcome. -/
theorem resolve_unknown_code (ops : List Op) (env : Env) (c : Int)
    (hc : ∀ o : String, Response.json o c ∉ responses Db.empty ops) :
    (env.findOneFails = false →
      (resolve env (run Db.empty ops) (toString c)).2.1 = .jsonError "Short URL not found") ∧
    (∀ loc : String, (resolve env (run Db.empty ops) (toString c)).2.1 ≠ .redirect loc) ∧
    (∀ (env2 : Env) (db : Db) (param : String), (resolve env2 db param).1 = db) := by
  have habs := findOneByShort_absent (run Db.empty ops).urls c (fun d hd heq => by
    rcases run_urls_issued ops Db.empty d hd with h | h
    · simp [Db.empty] at h
    · rw [heq] at h
      exact hc _ h)
  refine ⟨fun hf => ?_, fun loc => ?_, resolve_db⟩
  · simp [resolve, parseInt_toString, hf, habs]
  · cases hf : env.findOneFails <;> simp [resolve, parseInt_toString, hf, habs]

/-- C8 as amended, on the run `sampleOps`, which issued the codes `1` and `2`, at the
code `999`. -/
theorem resolve_unknown_code_witness :
    (∀ o : String, Response.json o 999 ∉ responses Db.empty sampleOps) ∧
      (resolve sampleEnv (run Db.empty sampleOps) (toString (999 : Int))).2.1 =
          .jsonError "Short URL not found" :=
  by
  have hr : responses Db.empty sampleOps =
      [.json "https://www.example.com" 1, .json "http://b.example" 2] := by decide
  have h : ∀ o : String, Response.json o 999 ∉ responses Db.empty sampleOps := by
    intro o ho
    rw [hr] at ho
    simp at ho
  exact ⟨h, (resolve_unknown_code sampleOps sampleEnv 999 h).1 rfl⟩

/-- C9, check-then-insert race: from a state reached by sequential requests
that holds no record for a URL `u` accepted by `new URL`, two `POST` requests
for `u` whose steps alternate (`findOne`, `findOne`, allocation, allocation,
`save`, `save`) both get nothing from `findOne`, allocate different codes
`c1` and `c2`, both succeed at `save` and answer `{u, c1}` and `{u, c2}`, and
the final store holds the two records `{u, c1}` and `{u, c2}`. -/
theorem check_then_insert_race (ops : List Op) (env : Env) (u : String) (p : ParsedURL)
    (hp : env.parseURL u = some p)
    (hnone : Url.findOneByOriginal (run Db.empty ops).urls u = none) :
    ∃ (schedule : List Bool) (c1 c2 : Int) (counters : List CounterDoc),
      runPair (run Db.empty ops, ⟨u, .atFindOne⟩, ⟨u, .atFindOne⟩) (schedule.take 2) =
        (run Db.empty ops, ⟨u, .atAllocate⟩, ⟨u, .atAllocate⟩) ∧
      c1 ≠ c2 ∧
      runPair (run Db.empty ops, ⟨u, .atFindOne⟩, ⟨u, .atFindOne⟩) schedule =
        (⟨counters, (run Db.empty ops).urls ++ [UrlDoc.mk u c1, UrlDoc.mk u c2]⟩,
          ⟨u, .done (.json u c1)⟩, ⟨u, .done (.json u c2)⟩) := by
  have hinv := inv_run ops _ inv_empty
  have hu := parseURL_nonempty env u p hp
  generalize run Db.empty ops = db at hnone hinv
  have s1 : stepRequest db ⟨u, .atFindOne⟩ = (db, ⟨u, .atAllocate⟩) := by
    simp [stepRequest, hnone]
  have hv1 : (getNextSequenceValue db "sequence_value").2 =
      counterValue db "sequence_value" + 1 := next_value _ _
  have hv2 : (getNextSequenceValue (getNextSequenceValue db "sequence_value").1
      "sequence_value").2 = counterValue db "sequence_value" + 2 := by
    rw [next_value, counterValue_next_same]; omega
  have sv1 : Url.save db.urls (UrlDoc.mk u (counterValue db "sequence_value" + 1)) =
      .ok (db.urls ++ [UrlDoc.mk u (counterValue db "sequence_value" + 1)]) :=
    save_ok _ _ _ hu (fun d hd => by have := (hinv.2.1 d hd).2; omega)
  have sv2 : Url.save (db.urls ++ [UrlDoc.mk u (counterValue db "sequence_value" + 1)])
      (UrlDoc.mk u (counterValue db "sequence_value" + 2)) =
      .ok ((db.urls ++ [UrlDoc.mk u (counterValue db "sequence_value" + 1)]) ++
        [UrlDoc.mk u (counterValue db "sequence_value" + 2)]) :=
    save_ok _ _ _ hu (fun d hd => by
      simp only [List.mem_append, List.mem_singleton] at hd
      rcases hd with hd | hd
      · have := (hinv.2.1 d hd).2; omega
      · subst hd; simp)
  have s3 : stepRequest db ⟨u, .atAllocate⟩ =
      ((getNextSequenceValue db "sequence_value").1,
        ⟨u, .atSave (counterValue db "sequence_value" + 1)⟩) := by
    simp [stepRequest, hv1]
  have s4 : stepRequest (getNextSequenceValue db "sequence_value").1 ⟨u, .atAllocate⟩ =
      ((getNextSequenceValue (getNextSequenceValue db "sequence_value").1 "sequence_value").1,
        ⟨u, .atSave (counterValue db "sequence_value" + 2)⟩) := by
    simp [stepRequest, hv2]
  have s5 : stepRequest
      (getNextSequenceValue (getNextSequenceValue db "sequence_value").1 "sequence_value").1
      ⟨u, .atSave (counterValue db "sequence_value" + 1)⟩ =
      (⟨(getNextSequenceValue (getNextSequenceValue db "sequence_value").1
          "sequence_value").1.counters,
        db.urls ++ [UrlDoc.mk u (counterValue db "sequence_value" + 1)]⟩,
        ⟨u, .done (.json u (counterValue db "sequence_value" + 1))⟩) := by
    simp [stepRequest, next_urls, sv1]
  have s6 : stepRequest
      ⟨(getNextSequenceValue (getNextSequenceValue db "sequence_value").1
          "sequence_value").1.counters,
        db.urls ++ [UrlDoc.mk u (counterValue db "sequence_value" + 1)]⟩
      ⟨u, .atSave (counterValue db "sequence_value" + 2)⟩ =
      (⟨(getNextSequenceValue (getNextSequenceValue db "sequence_value").1
          "sequence_value").1.counters,
        (db.urls ++ [UrlDoc.mk u (counterValue db "sequence_value" + 1)]) ++
          [UrlDoc.mk u (counterValue db "sequence_value" + 2)]⟩,
        ⟨u, .done (.json u (counterValue db "sequence_value" + 2))⟩) := by
    simp only [stepRequest, sv2]
  refine ⟨[false, true, false, true, false, true], counterValue db "sequence_value" + 1,
    counterValue db "sequence_value" + 2,
    (getNextSequenceValue (getNextSequenceValue db "sequence_value").1
      "sequence_value").1.counters, ?_, by omega, ?_⟩
  · simp only [List.take, runPair, stepPair, s1, Bool.false_eq_true, if_false, if_true]
  · simp only [runPair, stepPair, s1, s3, s4, s5, s6, Bool.false_eq_true, if_false, if_true,
      List.append_assoc, List.singleton_append]

/-- C9 for two first submissions of `https://www.example.com` to the empty
store. -/
theorem check_then_insert_race_witness :
    ∃ (schedule : List Bool) (c1 c2 : Int) (counters : List CounterDoc),
      runPair (run Db.empty [], ⟨"https://www.example.com", .atFindOne⟩,
          ⟨"https://www.example.com", .atFindOne⟩) (schedule.take 2) =
        (run Db.empty [], ⟨"https://www.example.com", .atAllocate⟩,
          ⟨"https://www.example.com", .atAllocate⟩) ∧
      c1 ≠ c2 ∧
      runPair (run Db.empty [], ⟨"https://www.example.com", .atFindOne⟩,
          ⟨"https://www.example.com", .atFindOne⟩) schedule =
        (⟨counters, (run Db.empty []).urls ++
            [UrlDoc.mk "https://www.example.com" c1, UrlDoc.mk "https://www.example.com" c2]⟩,
          ⟨"https://www.example.com", .done (.json "https://www.example.com" c1)⟩,
          ⟨"https://www.example.com", .done (.json "https://www.example.com" c2)⟩) :=
  check_then_insert_race [] sampleEnv "https://www.example.com" ⟨"https:", "www.example.com"⟩
    (by decide) (by decide)

/-- C10, the counter bounds the store: in every state reached from the empty
state by sequential requests, among them `POST` requests whose `save` is
rejected, every stored `short_url` lies between `1` and the value of the
counter `sequence_value`; so the code that `getNextSequenceValue` hands out
next is not stored yet, and `save` of a record with that code does not fail
on the unique index. -/
theorem counter_bounds_store (ops : List Op) :
    (∀ d ∈ (run Db.empty ops).urls,
      1 ≤ d.short_url ∧ d.short_url ≤ counterValue (run Db.empty ops) "sequence_value") ∧
    (∀ d ∈ (run Db.empty ops).urls,
      d.short_url ≠ (getNextSequenceValue (run Db.empty ops) "sequence_value").2) ∧
    (∀ u : String,
      Url.save (getNextSequenceValue (run Db.empty ops) "sequence_value").1.urls
        (UrlDoc.mk u (getNextSequenceValue (run Db.empty ops) "sequence_value").2) ≠
          .error .duplicateKey) := by
  have hinv := inv_run ops _ inv_empty
  have hfresh : ∀ d ∈ (run Db.empty ops).urls,
      d.short_url ≠ (getNextSequenceValue (run Db.empty ops) "sequence_value").2 := by
    intro d hd
    have := (hinv.2.1 d hd).2
    rw [next_value]
    omega
  refine ⟨hinv.2.1, hfresh, fun u => ?_⟩
  by_cases hu : u = ""
  · simp [Url.save, hu]
  · rw [next_urls, save_ok _ _ _ hu hfresh]
    simp

/-- C10 after the run `sampleOps` followed by a `POST` whose `save` is
rejected, at the record with code `2`. -/
theorem counter_bounds_store_witness :
    (1 ≤ (UrlDoc.mk "http://b.example" 2).short_url ∧
      (UrlDoc.mk "http://b.example" 2).short_url ≤
        counterValue
          (run Db.empty (sampleOps ++
            [.shorten ⟨sampleParseURL, rfl, fun _ => true, false, false, true⟩
              "http://c.example"]))
          "sequence_value") ∧
    (UrlDoc.mk "http://b.example" 2).short_url ≠
      (getNextSequenceValue
        (run Db.empty (sampleOps ++
          [.shorten ⟨sampleParseURL, rfl, fun _ => true, false, false, true⟩
            "http://c.example"]))
        "sequence_value").2 :=
  ⟨(counter_bounds_store (sampleOps ++
      [.shorten ⟨sampleParseURL, rfl, fun _ => true, false, false, true⟩
        "http://c.example"])).1 (UrlDoc.mk "http://b.example" 2) (by decide),
    (counter_bounds_store (sampleOps ++
      [.shorten ⟨sampleParseURL, rfl, fun _ => true, false, false, true⟩
        "http://c.example"])).2.1 (UrlDoc.mk "http://b.example" 2) (by decide)⟩

end UrlShortener
